import Mathlib

/-!
Verification of the longest-trail ("maximal weight Eulerian path") program
`longest-path.cpp`.

The C++ program is embedded shallowly:
* `std::map<int,Node>` becomes an association list `Graph := List (Int × Node)`
  kept in ascending key order by the construction function (`pushRecord`
  mirrors `std::map::operator[]` followed by `push_back`);
* the mutable `marked` flag lives inside each `Edge` record, and functions
  that mutate flags return an updated `Graph`;
* C++ exceptions (`graph.at` on a missing key, `throw "No unmarked edge"`)
  and nontermination are modelled by `Option`: `none` means the C++ run does
  not return a value normally;
* the priority queue of `shortest_paths` is a list popped at its
  lexicographically largest element, exactly the order `std::priority_queue`
  of `pair<Cost,pair<int,int>>` pops;
* loops whose termination is not structural take explicit fuel that is large
  enough (proved where a claim needs it).

The external blossom5 perfect-matching solver is not part of the repository;
it is modelled from the spec (see `pmSolve`).
-/

namespace LP

/-- An edge record as stored in one endpoint's incidence list:
destination key, cost, and the mutable "used" flag. -/
structure Edge where
  dst : Int
  cost : Int
  marked : Bool
deriving DecidableEq, Repr

/-- A node: its incidence list. (The C++ `Node` also carries the mutable
caches `id` and `dists`; those are recomputed functionally here.) -/
structure Node where
  edges : List Edge
deriving DecidableEq, Repr

/-- The graph: association list from node key to node, ascending keys. -/
abbrev Graph := List (Int × Node)

/-- One step of a recorded shortest path: predecessor and accumulated cost. -/
structure Path where
  prev : Int
  cost : Int
deriving DecidableEq, Repr

/-- Shortest-path tree, as `std::map<int,Path>`. -/
abbrev PathsMap := List (Int × Path)

/-- First-occurrence association lookup (`std::map::find`). -/
def lookupA {α : Type} : List (Int × α) → Int → Option α
  | [], _ => none
  | (k, v) :: rest, i => if i = k then some v else lookupA rest i

/-- Association update: replace the first binding of `i`, or append a new
binding (`std::map::operator[] = v`). -/
def updateA {α : Type} : List (Int × α) → Int → α → List (Int × α)
  | [], i, v => [(i, v)]
  | (k, w) :: rest, i, v => if i = k then (k, v) :: rest else (k, w) :: updateA rest i v

/-- The list of node keys in graph iteration order. -/
def graphKeys (g : Graph) : List Int := g.map Prod.fst

/-- Embeds `graph[i].edges.push_back(e)` on a `std::map`: append the record to an
existing node, or insert a fresh node at the sorted position. -/
def pushRecord : Graph → Int → Edge → Graph
  | [], i, e => [(i, ⟨[e]⟩)]
  | (k, n) :: rest, i, e =>
    if i = k then (k, ⟨n.edges ++ [e]⟩) :: rest
    else if i < k then (i, ⟨[e]⟩) :: (k, n) :: rest
    else (k, n) :: pushRecord rest i e

/-- One accepted input line `i/j@c`: two mirrored records, `i`'s first. -/
def addEdge (g : Graph) (i j c : Int) : Graph :=
  pushRecord (pushRecord g i ⟨j, c, false⟩) j ⟨i, c, false⟩

/-- The input loop of `main`: fold `addEdge` over the accepted lines. -/
def buildGraph (lines : List (Int × Int × Int)) : Graph :=
  lines.foldl (fun g l => addEdge g l.1 l.2.1 l.2.2) []

/-- Total number of `Edge` records stored in the graph. -/
def totalRecords (g : Graph) : Nat := (g.map (fun p => p.2.edges.length)).sum

/-- Twice the total weight (every logical edge is stored twice). -/
def totalCostTwice (g : Graph) : Int := (g.map (fun p => (p.2.edges.map Edge.cost).sum)).sum

/-- Total weight of the graph's logical edges, halving the double count. -/
def totalEdgeWeight (g : Graph) : Int := Int.tdiv (totalCostTwice g) 2

/-- The adjusted degree used by the exposure pass of `longest_path_to`:
the incident-record count, plus one if the node is the source and one more
if it is the target (two increments when the query has `i0 = i1`). -/
def adjustedDegree (i : Int) (n : Node) (i0 i1 : Int) : Nat :=
  n.edges.length + (if i = i0 then 1 else 0) + (if i = i1 then 1 else 0)

/-- The exposure pass: one fold over the graph collecting the exposed keys in
iteration order and assigning each the dense id `exposed.size()` it gets in
the C++ loop. -/
def exposedFold (g : Graph) (i0 i1 : Int) : List Int × List (Int × Int) :=
  g.foldl
    (fun acc p =>
      if adjustedDegree p.1 p.2 i0 i1 % 2 = 1 then
        (acc.1 ++ [p.1], acc.2 ++ [(p.1, (acc.1.length : Int))])
      else acc)
    ([], [])

/-- The `exposed` vector of `longest_path_to`. -/
def exposedList (g : Graph) (i0 i1 : Int) : List Int := (exposedFold g i0 i1).1

/-- The `id` slots assigned to exposed nodes (unexposed nodes keep `-1`). -/
def nodeIds (g : Graph) (i0 i1 : Int) : List (Int × Int) := (exposedFold g i0 i1).2

/-- Priority-queue entry `(-cost, (prev, node))`. -/
abbrev PQE := Int × Int × Int

/-- Lexicographic order on pq entries, as `std::pair` comparison. -/
def pqLe (a b : PQE) : Bool :=
  decide (a.1 < b.1 ∨ (a.1 = b.1 ∧ (a.2.1 < b.2.1 ∨ (a.2.1 = b.2.1 ∧ a.2.2 ≤ b.2.2))))

/-- Pop the lexicographically largest entry (what the max-heap
`std::priority_queue` pops), returning it and the remaining entries. -/
def popMax : List PQE → Option (PQE × List PQE)
  | [] => none
  | e :: es =>
    match popMax es with
    | none => some (e, [])
    | some (m, rest) => if pqLe e m then some (m, e :: rest) else some (e, es)

/-- The Dijkstra loop of `shortest_paths`, with fuel. `none` models a C++
run that throws (`graph.at` on a missing key) or does not terminate. -/
def spLoop (g : Graph) : Nat → List PQE → PathsMap → Option PathsMap
  | 0, pq, paths => if pq.isEmpty then some paths else none
  | fuel + 1, pq, paths =>
    match popMax pq with
    | none => some paths
    | some (e, pq') =>
      let d : Int := -e.1
      let better : Bool :=
        match lookupA paths e.2.2 with
        | none => true
        | some p => d < p.cost
      if better then
        match lookupA g e.2.2 with
        | none => none
        | some n =>
          spLoop g fuel (pq' ++ n.edges.map (fun ed => (-(d + ed.cost), e.2.2, ed.dst)))
            (updateA paths e.2.2 ⟨e.2.1, d⟩)
      else spLoop g fuel pq' paths

/-- Fuel that always suffices for `spLoop` (proved below): one initial pop
plus, for every node, one settling pop and one pop per pushed edge. -/
def spFuel (g : Graph) : Nat := 1 + (g.map (fun p => 1 + p.2.edges.length)).sum

/-- Embeds `shortest_paths(graph, i0)`: single-source shortest paths with lazy
deletion, seeded with `(0, (-1, i0))`. -/
def shortest_paths (g : Graph) (i0 : Int) : Option PathsMap :=
  spLoop g (spFuel g) [(0, -1, i0)] []

/-- Embeds `find_unmarked_edge_to`: index of the first unmarked record to `j`,
`none` modelling `throw "No unmarked edge"`. -/
def find_unmarked_edge_to (n : Node) (j : Int) : Option Nat :=
  n.edges.findIdx? (fun e => decide (e.dst = j) && !e.marked)

/-- Set the `marked` flag of record `k` of a node. -/
def setEdgeMark (n : Node) (k : Nat) (b : Bool) : Node :=
  ⟨n.edges.set k { n.edges.getD k ⟨0, 0, false⟩ with marked := b }⟩

/-- Replace the node stored at key `i` (first occurrence). -/
def setNode : Graph → Int → Node → Graph
  | [], _, _ => []
  | (k, m) :: rest, i, n => if i = k then (i, n) :: rest else (k, m) :: setNode rest i n

/-- Embeds `mark_half_edge(graph, i, j)`: at node `j`, mark the first unmarked
record pointing to `i`. -/
def mark_half_edge (g : Graph) (i j : Int) : Option Graph :=
  match lookupA g j with
  | none => none
  | some nj =>
    match find_unmarked_edge_to nj i with
    | none => none
    | some k => some (setNode g j (setEdgeMark nj k true))

/-- Embeds `mark_edge(graph, i, j)`: both half edges, `i`-side record first. -/
def mark_edge (g : Graph) (i j : Int) : Option Graph := do
  let g' ← mark_half_edge g i j
  mark_half_edge g' j i

/-- Embeds `mark_path`: walk the predecessor chain from `j`, marking each step.
A missing key yields the value-initialized `Path{0,0}` that
`std::map::operator[]` would create. -/
def mark_path (g : Graph) (dists : PathsMap) (j : Int) : Nat → Option Graph
  | 0 => none
  | fuel + 1 =>
    let pj := (lookupA dists j).getD ⟨0, 0⟩
    if 0 ≤ pj.prev then do
      let g' ← mark_edge g pj.prev j
      mark_path g' dists pj.prev fuel
    else some g

/-- Shortest-path trees from every node of the graph, as the exposure loop
of `longest_path_to` caches them. -/
def allDists (g : Graph) : Option (List (Int × PathsMap)) :=
  g.foldr
    (fun p acc =>
      match acc, shortest_paths g p.1 with
      | some m, some d => some ((p.1, d) :: m)
      | _, _ => none)
    (some [])

/-- The candidate edges handed to the matching solver: for every ordered
pair of exposed nodes `i < j` whose shortest-path cost is finite, an edge
between their dense ids weighted by that cost. -/
def candidateEdges (exposed : List Int) (dm : List (Int × PathsMap)) :
    List (Nat × Nat × Int) :=
  exposed.enum.foldl
    (fun acc ki =>
      acc ++ exposed.enum.filterMap (fun lj =>
        if ki.2 < lj.2 then
          match lookupA dm ki.2 with
          | none => none
          | some di =>
            match lookupA di lj.2 with
            | none => none
            | some p => some (ki.1, lj.1, p.cost)
        else none))
    []

/-- All perfect pairings of a list of ids: pair the head with each later id
and recurse on the rest (fuelled by the list length). -/
def pairingsAux : Nat → List Nat → List (List (Nat × Nat))
  | _, [] => [[]]
  | 0, _ :: _ => []
  | fuel + 1, x :: xs =>
    xs.foldr
      (fun y acc =>
        ((pairingsAux fuel (xs.erase y)).map (fun rest => (x, y) :: rest)) ++ acc)
      []

/-- All perfect pairings of a list of ids. -/
def pairings (l : List Nat) : List (List (Nat × Nat)) := pairingsAux l.length l

/-- Weight of one pairing under the candidate edges; `none` if some pair has
no candidate edge. -/
def pairingWeight (cand : List (Nat × Nat × Int)) : List (Nat × Nat) → Option Int
  | [] => some 0
  | (a, b) :: rest =>
    match cand.find? (fun t => decide (t.1 = a) && decide (t.2.1 = b)) with
    | none => none
    | some t =>
      match pairingWeight cand rest with
      | none => none
      | some w => some (t.2.2 + w)

/-- Partner array for a pairing: entry `id` holds `GetMatch(id)`. -/
def partnerArray (m : Nat) (pr : List (Nat × Nat)) : List Nat :=
  (List.range m).map (fun id =>
    match pr.find? (fun t => decide (t.1 = id) || decide (t.2 = id)) with
    | none => 0
    | some t => if t.1 = id then t.2 else t.1)

/-- Modelled from the spec: the external blossom5 `PerfectMatching` solver is
not part of this repository; §4.4/§6 specify it as an oracle that returns a
perfect matching of minimum total weight over the supplied candidate edges,
or indicates infeasibility (no perfect matching). This model enumerates all
pairings and keeps the first one of minimum weight. -/
def pmSolve (m : Nat) (cand : List (Nat × Nat × Int)) : Option (List Nat) :=
  let weighted := (pairings (List.range m)).filterMap
    (fun pr => (pairingWeight cand pr).map (fun w => (w, pr)))
  match weighted.foldl
      (fun best t =>
        match best with
        | none => some t
        | some b => if t.1 < b.1 then some t else some b)
      none with
  | none => none
  | some b => some (partnerArray m b.2)

/-- Reset every `marked` flag to `false`. -/
def clearMarks (g : Graph) : Graph :=
  g.map (fun p => (p.1, ⟨p.2.edges.map (fun e => { e with marked := false })⟩))

/-- The marking loop of `longest_path_to`: for each exposed id, mark the
shortest path to its matched partner, skipping matched pairs with `j < i`. -/
def markMatching (g : Graph) (exposed : List Int) (dm : List (Int × PathsMap))
    (arr : List Nat) : List Nat → Option Graph
  | [] => some g
  | id :: ids =>
    let i := exposed.getD id 0
    let j := exposed.getD (arr.getD id 0) 0
    if j < i then markMatching g exposed dm arr ids
    else
      match lookupA dm i with
      | none => none
      | some di =>
        match mark_path g di j (di.length + 1) with
        | none => none
        | some g' => markMatching g' exposed dm arr ids

/-- The final traversal of `longest_path_to`: depth-first over unmarked
edges, `queue` a stack popped at its head, accumulating every unmarked
record's cost from both endpoints. -/
def componentLoop (g : Graph) : Nat → List Int → List Int → Int → Option Int
  | 0, stack, _, acc => if stack.isEmpty then some acc else none
  | fuel + 1, stack, seen, acc =>
    match stack with
    | [] => some acc
    | i :: rest =>
      if i ∈ seen then componentLoop g fuel rest seen acc
      else
        match lookupA g i with
        | none => none
        | some n =>
          let st := n.edges.foldl
            (fun (pr : Int × List Int) e =>
              if e.marked then pr else (pr.1 + e.cost, e.dst :: pr.2))
            (acc, rest)
          componentLoop g fuel st.2 (i :: seen) st.1

/-- Fuel that suffices for the traversal on our inputs. -/
def dfsFuel (g : Graph) : Nat := 1 + totalRecords g + g.length

/-- Embeds `longest_path_to(graph, i0, i1)`. The returned `Int` is the trail
weight, `-1` the "no path from i0 to i1" sentinel; `none` models a run that
throws or hands the external solver an infeasible instance. NOTE: the final
traversal is seeded with node `0`, exactly as `queue.push_back(0)` in the
source. -/
def longest_path_to (g : Graph) (i0 i1 : Int) : Option Int :=
  match lookupA g i0 with
  | none => none
  | some _ =>
    match shortest_paths g i0 with
    | none => none
    | some d0 =>
      if (lookupA d0 i1).isNone then some (-1)
      else
        let exposed := exposedList g i0 i1
        match allDists g with
        | none => none
        | some dm =>
          match pmSolve exposed.length (candidateEdges exposed dm) with
          | none => none
          | some arr =>
            match markMatching (clearMarks g) exposed dm arr (List.range exposed.length) with
            | none => none
            | some g' =>
              match componentLoop g' (dfsFuel g') [0] [] 0 with
              | none => none
              | some total => some (Int.tdiv total 2)

/-- Modelled from the spec (§4.5): identical to `longest_path_to` except
that the final traversal is seeded with the source node, "the connected
component reachable from the source via unused edges only". Used to compare
the source against the spec's words. -/
def longest_path_to_spec (g : Graph) (i0 i1 : Int) : Option Int :=
  match lookupA g i0 with
  | none => none
  | some _ =>
    match shortest_paths g i0 with
    | none => none
    | some d0 =>
      if (lookupA d0 i1).isNone then some (-1)
      else
        let exposed := exposedList g i0 i1
        match allDists g with
        | none => none
        | some dm =>
          match pmSolve exposed.length (candidateEdges exposed dm) with
          | none => none
          | some arr =>
            match markMatching (clearMarks g) exposed dm arr (List.range exposed.length) with
            | none => none
            | some g' =>
              match componentLoop g' (dfsFuel g') [i0] [] 0 with
              | none => none
              | some total => some (Int.tdiv total 2)

/-- Embeds `longest_paths`: one query per node of the graph, in map order. `none`
models an aborted run (an exception in any query ends the program). -/
def longest_pathsAux (g : Graph) (i0 : Int) : List (Int × Node) → Option (List (Int × Int))
  | [] => some []
  | (t, _) :: rest =>
    match longest_path_to g i0 t, longest_pathsAux g i0 rest with
    | some v, some m => some ((t, v) :: m)
    | _, _ => none

/-- Top-level fast solver: `longest_paths(graph, i0)`. -/
def longest_paths (g : Graph) (i0 : Int) : Option (List (Int × Int)) :=
  longest_pathsAux g i0 g

/-- The marking performed by one iteration of the brute-force edge loop:
mark record `k` of node `i` directly, then mark the first unmarked mirror
record at its endpoint (the note in the source: the direct record is marked
first so that a self-loop marks two distinct records). -/
def bruteMarkStep (g : Graph) (i : Int) (k : Nat) : Option (Graph × Int × Int) :=
  match lookupA g i with
  | none => none
  | some n =>
    match n.edges.get? k with
    | none => none
    | some e =>
      let g1 := setNode g i (setEdgeMark n k true)
      match lookupA g1 e.dst with
      | none => none
      | some nj =>
        match find_unmarked_edge_to nj i with
        | none => none
        | some l => some (setNode g1 e.dst (setEdgeMark nj l true), e.dst, (l : Int))

/-- The recursive brute-force search `longest_paths_brute(graph, dist, i,
cost)`: update `dist[i]`, then for every unmarked incident record, mark it
and its mirror, recurse, and unmark both. Threads the marked graph; `none`
models `throw "No unmarked edge"` or fuel exhaustion. -/
def bruteGo (fuel : Nat) (g : Graph) (dist : List (Int × Int)) (i cost : Int) :
    Option (List (Int × Int) × Graph) :=
  match fuel with
  | 0 => none
  | fuel + 1 =>
    let d0 := (lookupA dist i).getD 0
    let dist1 := updateA dist i (if d0 < cost then cost else d0)
    match lookupA g i with
    | none => none
    | some n =>
      (List.range n.edges.length).foldl
        (fun acc k =>
          match acc with
          | none => none
          | some (dcur, gcur) =>
            match lookupA gcur i with
            | none => none
            | some ncur =>
              match ncur.edges.get? k with
              | none => none
              | some e =>
                if e.marked then some (dcur, gcur)
                else
                  let g1 := setNode gcur i (setEdgeMark ncur k true)
                  match lookupA g1 e.dst with
                  | none => none
                  | some nj =>
                    match find_unmarked_edge_to nj i with
                    | none => none
                    | some l =>
                      let g2 := setNode g1 e.dst (setEdgeMark nj l true)
                      match bruteGo fuel g2 dcur e.dst (cost + e.cost) with
                      | none => none
                      | some (d', g3) =>
                        match lookupA g3 e.dst with
                        | none => none
                        | some nj' =>
                          match lookupA (setNode g3 e.dst (setEdgeMark nj' l false)) i with
                          | none => none
                          | some ni' =>
                            some (d', setNode (setNode g3 e.dst (setEdgeMark nj' l false)) i
                              (setEdgeMark ni' k false)))
        (some (dist1, g))

/-- Embeds `longest_paths_brute(graph, i0)`: clear all flags, run the search. -/
def longest_paths_brute (g : Graph) (i0 : Int) : Option (List (Int × Int)) :=
  match bruteGo (totalRecords g + 2) (clearMarks g) [] i0 0 with
  | none => none
  | some (dist, _) => some dist

/-- The marked flags of the records at node `i` pointing to `j`, in list
order. For a graph built by the input loop, the `k`-th record to `j` at `i`
and the `k`-th record to `i` at `j` are the two halves of one logical edge. -/
def marksTo (g : Graph) (i j : Int) : List Bool :=
  match lookupA g i with
  | none => []
  | some n => (n.edges.filter (fun e => e.dst = j)).map Edge.marked

/-! ### Concrete instances used by the claims -/

/-- C1 instance: a heavy triangle on nodes 0,1,2 plus a separate unit edge
3-4; queried with source 3 and target 4. -/
def gC1 : Graph := buildGraph [(0, 1, 100), (1, 2, 100), (2, 0, 100), (3, 4, 1)]

/-- C2 instance: two disjoint edges 0-1 (cost 5) and 2-3 (cost 7); queried
with source 2 and target 3. -/
def gC2 : Graph := buildGraph [(0, 1, 5), (2, 3, 7)]

/-- C5 instance (the documented disconnection counter-example): components
{0,1} (edge 0-1 of cost 2) and the triangle {2,3,4} (costs 4), joined only
by the two unit edges 0-2 and 1-3, both removed by the matching for the
query (0, 1). -/
def gC5 : Graph := buildGraph [(0, 1, 2), (0, 2, 1), (1, 3, 1), (2, 3, 4), (3, 4, 4), (4, 2, 4)]

/-- C6 instance: a hand-built `map<int,Node>` (the C++ function accepts any
such map) in which node 2 has a single unmirrored record, so the query
(0, 1) produces the odd exposed list [2] and an infeasible matching. -/
def gC6 : Graph := [(0, ⟨[⟨1, 1, false⟩]⟩), (1, ⟨[⟨0, 1, false⟩]⟩), (2, ⟨[⟨3, 1, false⟩]⟩), (3, ⟨[]⟩)]

/-- C8 instance: two parallel edges 0-1 with distinct costs 5 and 7. -/
def gC8 : Graph := buildGraph [(0, 1, 5), (0, 1, 7)]

/-! ### Evaluation theorems on the concrete instances -/

/-- Claim C1 (code_bug evidence): on `gC1` with source 3 and target 4 the
fast algorithm returns 300 — the weight of the triangle that contains node
0 but neither the source nor the target — while the brute-force reference
shows the true maximum trail weight from 3 to 4 is 1. The claimed bound
"fast result ≤ true maximum trail weight" fails because the final
traversal is seeded with node 0 instead of the source. -/
theorem C1_fast_result_exceeds_true_maximum :
    longest_path_to gC1 3 4 = some 300 ∧
    (longest_paths_brute gC1 3).bind (fun d => lookupA d 4) = some 1 ∧
    ¬ ((300 : Int) ≤ 1) := by
  refine ⟨by decide, by decide, by decide⟩

/-- Claim C2 (code_bug evidence): on `gC2` with source 2 and target 3 the
code returns 0, the unmarked weight of node 0's component, while the
spec-modelled variant that seeds the final traversal with the source (as
§4.5 of the spec and the README describe) returns 7, the unmarked weight
of the source's component. -/
theorem C2_traversal_starts_at_node_zero :
    longest_path_to gC2 2 3 = some 0 ∧
    longest_path_to_spec gC2 2 3 = some 7 ∧
    ((0 : Int) ≠ 7) := by
  refine ⟨by decide, by decide, by decide⟩

/-- Claim C5: on the documented disconnection counter-example `gC5`, the
fast algorithm's answer for the query (0, 1) is 2, strictly less than the
brute-force reference's answer 10 for the same query (the matching removes
the two unit bridges 0-2 and 1-3, disconnecting the heavy triangle). -/
theorem C5_disconnection_gap :
    longest_path_to gC5 0 1 = some 2 ∧
    (longest_paths_brute gC5 0).bind (fun d => lookupA d 1) = some 10 ∧
    ((2 : Int) < 10) := by
  refine ⟨by decide, by decide, by decide⟩

/-- Claim C6 (counterexample): on `gC6` the query (0, 1) has an odd exposed
list ([2]), so no perfect matching exists; the computation does not yield
the no-trail sentinel `-1` — it fails (`none`: the unguarded external
solver's precondition is violated) — and the top-level search over all
targets propagates the failure instead of skipping the target. -/
theorem C6_no_guard_counterexample :
    longest_path_to gC6 0 1 = none ∧
    longest_paths gC6 0 = none ∧
    ((none : Option Int) ≠ some (-1)) := by
  refine ⟨by decide, by decide, by decide⟩

/-- Claim C8 (code_bug evidence): on `gC8` (parallel edges 0-1 of costs 5
and 7), the brute-force marking of record 1 at node 0 marks the cost-7
record there but the cost-5 record at node 1, leaving the two records of
each logical edge with differing flags; downstream,
`longest_paths_brute` reports 14 for node 0, exceeding the graph's total
edge weight 12 — impossible for a trail. -/
theorem C8_marking_desync :
    (bruteMarkStep (clearMarks gC8) 0 1).map (fun t => (marksTo t.1 0 1, marksTo t.1 1 0)) =
      some ([false, true], [true, false]) ∧
    (([false, true] : List Bool) ≠ [true, false]) ∧
    (longest_paths_brute gC8 0).bind (fun d => lookupA d 0) = some 14 ∧
    totalEdgeWeight gC8 = 12 ∧
    ((12 : Int) < 14) := by
  refine ⟨by decide, by decide, by decide, by decide, by decide⟩

/-! ### The exposure pass: general lemmas (claims C4, C9, C10) -/

/-- Dense ids for a list of keys, starting at `k`. -/
def idsOf : Nat → List Int → List (Int × Int)
  | _, [] => []
  | k, i :: is => (i, (k : Int)) :: idsOf (k + 1) is

/-- The Boolean exposure test used in filter form. -/
def isExposedAt (i0 i1 : Int) (p : Int × Node) : Bool :=
  decide (adjustedDegree p.1 p.2 i0 i1 % 2 = 1)

lemma exposedFold_go (i0 i1 : Int) :
    ∀ (g : Graph) (a : List Int) (b : List (Int × Int)),
      g.foldl
        (fun acc p =>
          if adjustedDegree p.1 p.2 i0 i1 % 2 = 1 then
            (acc.1 ++ [p.1], acc.2 ++ [(p.1, (acc.1.length : Int))])
          else acc)
        (a, b) =
      (a ++ (g.filter (isExposedAt i0 i1)).map Prod.fst,
       b ++ idsOf a.length ((g.filter (isExposedAt i0 i1)).map Prod.fst)) := by
  intro g
  induction g with
  | nil => intro a b; simp [idsOf]
  | cons p g ih =>
    intro a b
    by_cases h : adjustedDegree p.1 p.2 i0 i1 % 2 = 1
    · rw [List.foldl_cons, if_pos h, ih,
        List.filter_cons_of_pos (by simpa [isExposedAt] using h)]
      simp [idsOf, List.append_assoc]
    · rw [List.foldl_cons, if_neg h,
        List.filter_cons_of_neg (by simpa [isExposedAt] using h)]
      exact ih a b

lemma exposedList_eq_filter (g : Graph) (i0 i1 : Int) :
    exposedList g i0 i1 = (g.filter (isExposedAt i0 i1)).map Prod.fst := by
  have h := exposedFold_go i0 i1 g [] []
  simp only [exposedList, exposedFold, h]
  simp

lemma nodeIds_eq_idsOf (g : Graph) (i0 i1 : Int) :
    nodeIds g i0 i1 = idsOf 0 (exposedList g i0 i1) := by
  have h := exposedFold_go i0 i1 g [] []
  simp only [nodeIds, exposedList, exposedFold, h]
  simp

lemma idsOf_mem (l : List Int) : ∀ (m : Nat) (i : Int) (k : Int),
    ((i, k) ∈ idsOf m l ↔ ∃ kn : Nat, l.get? kn = some i ∧ k = ((m + kn : Nat) : Int)) := by
  induction l with
  | nil => intro m i k; simp [idsOf]
  | cons x xs ih =>
    intro m i k
    constructor
    · intro h
      rcases List.mem_cons.1 h with h | h
      · refine ⟨0, ?_, ?_⟩
        · simp [(Prod.mk.injEq _ _ _ _ ▸ h).1]
        · have := (Prod.mk.injEq _ _ _ _ ▸ h).2
          simpa using this
      · rcases (ih (m + 1) i k).1 h with ⟨kn, h1, h2⟩
        exact ⟨kn + 1, by simpa using h1, by rw [h2]; norm_num; omega⟩
    · rintro ⟨kn, h1, h2⟩
      cases kn with
      | zero =>
        have hx : x = i := by simpa using h1
        refine List.mem_cons.2 (Or.inl ?_)
        rw [hx]
        simp at h2
        rw [h2]
      | succ kn =>
        refine List.mem_cons.2 (Or.inr ?_)
        refine (ih (m + 1) i k).2 ⟨kn, by simpa using h1, by rw [h2]; norm_num; omega⟩

/-- Claim C4: for every graph and every query (i0, i1), a node is placed in
the exposed list exactly when its incident-record count — plus one if it
equals the source and one more if it equals the target (two increments when
they coincide) — is odd; the exposed list is the graph's node enumeration
filtered by that test, and its members receive dense zero-based indices in
that order. -/
theorem C4_exposed_characterization (g : Graph) (i0 i1 : Int) :
    (∀ i, i ∈ exposedList g i0 i1 ↔ ∃ n, (i, n) ∈ g ∧ adjustedDegree i n i0 i1 % 2 = 1) ∧
    exposedList g i0 i1 = (g.filter (isExposedAt i0 i1)).map Prod.fst ∧
    nodeIds g i0 i1 = idsOf 0 (exposedList g i0 i1) ∧
    (∀ i k, (i, k) ∈ nodeIds g i0 i1 ↔
      ∃ kn : Nat, (exposedList g i0 i1).get? kn = some i ∧ k = (kn : Int)) := by
  refine ⟨?_, exposedList_eq_filter g i0 i1, nodeIds_eq_idsOf g i0 i1, ?_⟩
  · intro i
    rw [exposedList_eq_filter]
    constructor
    · intro h
      rcases List.mem_map.1 h with ⟨p, hp, hfst⟩
      rcases List.mem_filter.1 hp with ⟨hmem, hq⟩
      rcases p with ⟨pi, pn⟩
      obtain rfl : pi = i := hfst
      exact ⟨pn, hmem, by simpa [isExposedAt] using hq⟩
    · rintro ⟨n, hmem, hq⟩
      exact List.mem_map.2 ⟨(i, n), List.mem_filter.2 ⟨hmem, by simpa [isExposedAt] using hq⟩, rfl⟩
  · intro i k
    rw [nodeIds_eq_idsOf]
    have h := idsOf_mem (exposedList g i0 i1) 0 i k
    simpa using h

/-! ### Key order and record counts under construction (claims C9, C10) -/

lemma graphKeys_pushRecord (g : Graph) (i : Int) (e : Edge) :
    ∀ b, b ∈ graphKeys (pushRecord g i e) → b = i ∨ b ∈ graphKeys g := by
  induction g with
  | nil => intro b hb; simpa [pushRecord, graphKeys] using hb
  | cons p g ih =>
    intro b hb
    by_cases h1 : i = p.1
    · rcases p with ⟨k, n⟩
      simp only [pushRecord] at hb
      rw [if_pos h1] at hb
      simp [graphKeys] at hb ⊢
      tauto
    · rcases p with ⟨k, n⟩
      by_cases h2 : i < k
      · simp only [pushRecord] at hb
        rw [if_neg h1, if_pos h2] at hb
        simp [graphKeys] at hb ⊢
        tauto
      · simp only [pushRecord] at hb
        rw [if_neg h1, if_neg h2] at hb
        simp [graphKeys] at hb ⊢
        rcases hb with hb | hb
        · tauto
        · rcases ih b (by simpa [graphKeys] using hb) with h | h
          · tauto
          · simp [graphKeys] at h; tauto

lemma sorted_pushRecord (g : Graph) (i : Int) (e : Edge)
    (hs : List.Sorted (fun a b => a < b) (graphKeys g)) :
    List.Sorted (fun a b => a < b) (graphKeys (pushRecord g i e)) := by
  induction g with
  | nil => simp [pushRecord, graphKeys]
  | cons p g ih =>
    rcases p with ⟨k, n⟩
    simp only [graphKeys, List.map_cons, List.sorted_cons] at hs
    by_cases h1 : i = k
    · simp only [pushRecord, if_pos h1]
      simp only [graphKeys, List.map_cons, List.sorted_cons]
      exact ⟨hs.1, hs.2⟩
    · by_cases h2 : i < k
      · simp only [pushRecord, if_neg h1, if_pos h2]
        simp only [graphKeys, List.map_cons, List.sorted_cons]
        refine ⟨?_, hs.1, hs.2⟩
        intro b hb
        simp [graphKeys] at hb
        rcases hb with hb | hb
        · omega
        · have hk := hs.1 b (by simp [graphKeys]; exact hb)
          omega
      · simp only [pushRecord, if_neg h1, if_neg h2]
        simp only [graphKeys, List.map_cons, List.sorted_cons]
        refine ⟨?_, ih hs.2⟩
        intro b hb
        rcases graphKeys_pushRecord g i e b (by simpa [graphKeys] using hb) with h | h
        · omega
        · exact hs.1 b h

lemma sorted_buildGraph (lines : List (Int × Int × Int)) :
    List.Sorted (fun a b => a < b) (graphKeys (buildGraph lines)) := by
  suffices h : ∀ (ls : List (Int × Int × Int)) (g : Graph),
      List.Sorted (fun a b => a < b) (graphKeys g) →
      List.Sorted (fun a b => a < b)
        (graphKeys (ls.foldl (fun g l => addEdge g l.1 l.2.1 l.2.2) g)) by
    exact h lines [] (by simp [graphKeys])
  intro ls
  induction ls with
  | nil => intro g hg; simpa using hg
  | cons l ls ih =>
    intro g hg
    exact ih _ (sorted_pushRecord _ _ _ (sorted_pushRecord _ _ _ hg))

lemma nodup_buildGraph (lines : List (Int × Int × Int)) :
    (graphKeys (buildGraph lines)).Nodup :=
  (sorted_buildGraph lines).nodup

lemma totalRecords_pushRecord (g : Graph) (i : Int) (e : Edge) :
    totalRecords (pushRecord g i e) = totalRecords g + 1 := by
  induction g with
  | nil => simp [pushRecord, totalRecords]
  | cons p g ih =>
    rcases p with ⟨k, n⟩
    by_cases h1 : i = k
    · simp [pushRecord, if_pos h1, totalRecords]
      omega
    · by_cases h2 : i < k
      · simp [pushRecord, if_neg h1, if_pos h2, totalRecords]
        omega
      · simp only [pushRecord, if_neg h1, if_neg h2]
        simp [totalRecords] at ih ⊢
        omega

lemma totalRecords_buildGraph (lines : List (Int × Int × Int)) :
    totalRecords (buildGraph lines) = 2 * lines.length := by
  suffices h : ∀ (ls : List (Int × Int × Int)) (g : Graph),
      totalRecords (ls.foldl (fun g l => addEdge g l.1 l.2.1 l.2.2) g) =
        totalRecords g + 2 * ls.length by
    have := h lines []
    simpa [totalRecords] using this
  intro ls
  induction ls with
  | nil => intro g; simp
  | cons l ls ih =>
    intro g
    rw [List.foldl_cons, ih]
    simp [addEdge, totalRecords_pushRecord]
    omega

lemma filter_length_parity (g : Graph) (i0 i1 : Int) :
    (g.filter (isExposedAt i0 i1)).length % 2 =
      (g.map (fun p => adjustedDegree p.1 p.2 i0 i1)).sum % 2 := by
  induction g with
  | nil => simp
  | cons p g ih =>
    by_cases h : adjustedDegree p.1 p.2 i0 i1 % 2 = 1
    · rw [List.filter_cons_of_pos (by simpa [isExposedAt] using h)]
      simp only [List.length_cons, List.map_cons, List.sum_cons]
      omega
    · rw [List.filter_cons_of_neg (by simpa [isExposedAt] using h)]
      simp only [List.map_cons, List.sum_cons]
      omega

lemma count_keys_eq_sum (g : Graph) (x : Int) :
    (graphKeys g).count x = (g.map (fun p => if p.1 = x then 1 else 0)).sum := by
  induction g with
  | nil => simp [graphKeys]
  | cons p g ih =>
    simp only [graphKeys, List.map_cons, List.count_cons, List.sum_cons] at ih ⊢
    by_cases h : p.1 = x
    · simp [h, ih]
      omega
    · have h2 : ¬ x = p.1 := fun hx => h hx.symm
      simp [h, h2, ih]

lemma sum_adjustedDegree (g : Graph) (i0 i1 : Int) :
    (g.map (fun p => adjustedDegree p.1 p.2 i0 i1)).sum =
      totalRecords g + (graphKeys g).count i0 + (graphKeys g).count i1 := by
  rw [count_keys_eq_sum g i0, count_keys_eq_sum g i1]
  induction g with
  | nil => simp [totalRecords]
  | cons p g ih =>
    simp only [List.map_cons, List.sum_cons, totalRecords] at ih ⊢
    simp only [adjustedDegree] at ih ⊢
    omega

/-- Claim C10: for every graph built by the input loop (each accepted line
inserts two mirrored records) and every query whose source and target are
nodes of the graph — the situation in which `longest_path_to` computes the
exposed list, since it returns the sentinel before this point when the
target is not reachable from the source — the exposed list has even
length, so the matching instance has an even number of nodes. -/
theorem C10_exposed_even (lines : List (Int × Int × Int)) (s t : Int)
    (hs : s ∈ graphKeys (buildGraph lines)) (ht : t ∈ graphKeys (buildGraph lines)) :
    Even (exposedList (buildGraph lines) s t).length := by
  have hlen : (exposedList (buildGraph lines) s t).length =
      ((buildGraph lines).filter (isExposedAt s t)).length := by
    rw [exposedList_eq_filter]; simp
  have hpar := filter_length_parity (buildGraph lines) s t
  have hsum := sum_adjustedDegree (buildGraph lines) s t
  have hcs := List.count_eq_one_of_mem (nodup_buildGraph lines) hs
  have hct := List.count_eq_one_of_mem (nodup_buildGraph lines) ht
  have hrec := totalRecords_buildGraph lines
  rw [Nat.even_iff]
  omega

/-- Witness for C10 at a concrete input. -/
theorem C10_exposed_even_witness :
    (0 : Int) ∈ graphKeys (buildGraph [(0, 1, 5)]) ∧
    (1 : Int) ∈ graphKeys (buildGraph [(0, 1, 5)]) ∧
    Even (exposedList (buildGraph [(0, 1, 5)]) 0 1).length :=
  ⟨by decide, by decide, C10_exposed_even [(0, 1, 5)] 0 1 (by decide) (by decide)⟩

/-- Pointwise relation between graphs: same keys in the same order, record
counts of corresponding nodes equal modulo 2. -/
def DegParityEq (p q : Int × Node) : Prop :=
  p.1 = q.1 ∧ p.2.edges.length % 2 = q.2.edges.length % 2

lemma forall2_degParity_refl (g : Graph) : List.Forall₂ DegParityEq g g := by
  induction g with
  | nil => exact List.Forall₂.nil
  | cons p g ih => exact List.Forall₂.cons ⟨rfl, rfl⟩ ih

lemma exposedFold_congr (i0 i1 : Int) (g1 g2 : Graph)
    (h : List.Forall₂ DegParityEq g1 g2) :
    ∀ acc, g1.foldl
        (fun acc p =>
          if adjustedDegree p.1 p.2 i0 i1 % 2 = 1 then
            (acc.1 ++ [p.1], acc.2 ++ [(p.1, (acc.1.length : Int))])
          else acc)
        acc =
      g2.foldl
        (fun acc p =>
          if adjustedDegree p.1 p.2 i0 i1 % 2 = 1 then
            (acc.1 ++ [p.1], acc.2 ++ [(p.1, (acc.1.length : Int))])
          else acc)
        acc := by
  induction h with
  | nil => intro acc; rfl
  | @cons p q l1 l2 hpq hrest ih =>
    intro acc
    rcases hpq with ⟨hkey, hpar⟩
    simp only [List.foldl_cons]
    have hdeg : adjustedDegree p.1 p.2 i0 i1 % 2 = adjustedDegree q.1 q.2 i0 i1 % 2 := by
      simp only [adjustedDegree, hkey]
      omega
    rw [show (if adjustedDegree p.1 p.2 i0 i1 % 2 = 1 then
          (acc.1 ++ [p.1], acc.2 ++ [(p.1, (acc.1.length : Int))])
        else acc) =
        (if adjustedDegree q.1 q.2 i0 i1 % 2 = 1 then
          (acc.1 ++ [q.1], acc.2 ++ [(q.1, (acc.1.length : Int))])
        else acc) from by rw [hdeg, hkey]]
    exact ih _

lemma pushRecord_existing (g : Graph) (n : Int) (e e' : Edge)
    (hsort : List.Sorted (fun a b => a < b) (graphKeys g)) (hn : n ∈ graphKeys g) :
    List.Forall₂ DegParityEq (pushRecord (pushRecord g n e) n e') g := by
  induction g with
  | nil => simp [graphKeys] at hn
  | cons p g ih =>
    rcases p with ⟨k, m⟩
    simp only [graphKeys, List.map_cons, List.sorted_cons] at hsort
    by_cases h1 : n = k
    · simp only [pushRecord, if_pos h1]
      refine List.Forall₂.cons ⟨rfl, ?_⟩ (forall2_degParity_refl g)
      simp
    · have hmem : n ∈ graphKeys g := by
        simp only [graphKeys, List.map_cons, List.mem_cons] at hn
        rcases hn with h | h
        · exact absurd h h1
        · exact h
      have hk : k < n := hsort.1 n hmem
      have h2 : ¬ n < k := by omega
      simp only [pushRecord, if_neg h1, if_neg h2]
      exact List.Forall₂.cons ⟨rfl, rfl⟩ (ih hsort.2 hmem)

/-- Claim C9: adding a self-loop at a node of the graph (the input line
`n/n@c` pushes two records onto that node's list) leaves every node's
exposure parity unchanged, so the exposed list of every (source, target)
query is identical with and without the loop. -/
theorem C9_self_loop_preserves_exposure (g : Graph) (n c i0 i1 : Int)
    (hsort : List.Sorted (fun a b => a < b) (graphKeys g)) (hn : n ∈ graphKeys g) :
    exposedList (addEdge g n n c) i0 i1 = exposedList g i0 i1 := by
  have h := pushRecord_existing g n ⟨n, c, false⟩ ⟨n, c, false⟩ hsort hn
  have h2 := exposedFold_congr i0 i1 _ _ h ([], [])
  simp only [exposedList, exposedFold, addEdge]
  rw [h2]

/-- Witness for C9 at a concrete input. -/
theorem C9_self_loop_preserves_exposure_witness :
    List.Sorted (fun a b => a < b) (graphKeys (buildGraph [(0, 1, 3)])) ∧
    (1 : Int) ∈ graphKeys (buildGraph [(0, 1, 3)]) ∧
    exposedList (addEdge (buildGraph [(0, 1, 3)]) 1 1 9) 0 1 =
      exposedList (buildGraph [(0, 1, 3)]) 0 1 :=
  ⟨by decide, by decide,
    C9_self_loop_preserves_exposure (buildGraph [(0, 1, 3)]) 1 9 0 1 (by decide) (by decide)⟩

/-! ### Claim C6: the missing guard -/

lemma longest_pathsAux_none (g : Graph) (i0 t : Int)
    (ht : longest_path_to g i0 t = none) :
    ∀ l : List (Int × Node), (∃ n, (t, n) ∈ l) → longest_pathsAux g i0 l = none := by
  intro l
  induction l with
  | nil => rintro ⟨n, hn⟩; cases hn
  | cons p rest ih =>
    rintro ⟨n, hn⟩
    rcases List.mem_cons.1 hn with h | h
    · rcases p with ⟨pt, pn⟩
      have hpt : pt = t := (Prod.mk.injEq _ _ _ _ ▸ h.symm).1
      subst hpt
      simp only [longest_pathsAux, ht]
    · simp only [longest_pathsAux]
      rw [ih ⟨n, h⟩]
      cases longest_path_to g i0 p.1 <;> rfl

/-- Claim C6 (amended): the code contains no guard for an odd exposed count
or an infeasible matching. Whenever the matching instance built for a
query whose target passed the reachability test is infeasible — as when the
exposed count is odd, or two exposed nodes are mutually unreachable —
`longest_path_to` fails outright (the unguarded external solver's
precondition is violated; modelled as `none`) instead of producing the
no-trail sentinel `-1`, and the top-level maximum search propagates the
failure instead of skipping the target. -/
theorem C6_infeasible_propagates (g : Graph) (i0 i1 : Int) (n0 : Node) (d0 : PathsMap)
    (dm : List (Int × PathsMap))
    (h0 : lookupA g i0 = some n0)
    (h1 : shortest_paths g i0 = some d0)
    (h2 : (lookupA d0 i1).isNone = false)
    (h3 : allDists g = some dm)
    (h4 : pmSolve (exposedList g i0 i1).length
      (candidateEdges (exposedList g i0 i1) dm) = none) :
    longest_path_to g i0 i1 = none ∧
    (i1 ∈ graphKeys g → longest_paths g i0 = none) := by
  have hmain : longest_path_to g i0 i1 = none := by
    unfold longest_path_to
    rw [h0, h1]
    simp only [h2, h3, h4, Bool.false_eq_true, if_false]
  refine ⟨hmain, fun hmem => ?_⟩
  rcases List.mem_map.1 hmem with ⟨p, hp, hfst⟩
  exact longest_pathsAux_none g i0 i1 hmain g ⟨p.2, by rcases p with ⟨a, b⟩; cases hfst; exact hp⟩

/-- Witness for C6 at the concrete infeasible instance `gC6`. -/
theorem C6_infeasible_propagates_witness :
    longest_path_to gC6 0 1 = none ∧ ((1 : Int) ∈ graphKeys gC6 → longest_paths gC6 0 = none) :=
  C6_infeasible_propagates gC6 0 1 ⟨[⟨1, 1, false⟩]⟩
    [(0, ⟨-1, 0⟩), (1, ⟨0, 1⟩)]
    [(0, [(0, ⟨-1, 0⟩), (1, ⟨0, 1⟩)]),
     (1, [(1, ⟨-1, 0⟩), (0, ⟨1, 1⟩)]),
     (2, [(2, ⟨-1, 0⟩), (3, ⟨2, 1⟩)]),
     (3, [(3, ⟨-1, 0⟩)])]
    (by decide) (by decide) (by decide) (by decide) (by decide)

/-! ### Walks, reachability, and well-formedness (claims C3, C7) -/

/-- Some record of cost `c` from `i` to `j` exists. -/
def EdgeStep (g : Graph) (i j c : Int) : Prop :=
  ∃ n, lookupA g i = some n ∧ ∃ e ∈ n.edges, e.dst = j ∧ e.cost = c

/-- Walks from `s`, with their total cost. -/
inductive Walk (g : Graph) (s : Int) : Int → Int → Prop
  | refl : Walk g s s 0
  | step {i w j c} : Walk g s i w → EdgeStep g i j c → Walk g s j (w + c)

/-- Node `t` is reachable from `s`. -/
def Reaches (g : Graph) (s t : Int) : Prop := ∃ w, Walk g s t w

/-- Every record's destination is a node of the graph (so `graph.at` never
throws during traversals). The input loop guarantees this. -/
def Closed (g : Graph) : Prop := ∀ p ∈ g, ∀ e ∈ p.2.edges, e.dst ∈ graphKeys g

/-- All edge costs are non-negative (spec: non-negative integer costs). -/
def NonnegCosts (g : Graph) : Prop := ∀ p ∈ g, ∀ e ∈ p.2.edges, 0 ≤ e.cost

lemma lookupA_mem {α : Type} {l : List (Int × α)} {i : Int} {v : α}
    (h : lookupA l i = some v) : (i, v) ∈ l := by
  induction l with
  | nil => cases h
  | cons q rest ih =>
    rcases q with ⟨k, w⟩
    by_cases hik : i = k
    · subst hik
      simp only [lookupA, if_pos rfl] at h
      cases h
      exact List.mem_cons_self _ _
    · simp only [lookupA, if_neg hik] at h
      exact List.mem_cons_of_mem _ (ih h)

lemma lookupA_isSome_iff {α : Type} {l : List (Int × α)} {i : Int} :
    (lookupA l i).isSome = true ↔ i ∈ l.map Prod.fst := by
  induction l with
  | nil => simp [lookupA]
  | cons q rest ih =>
    rcases q with ⟨k, w⟩
    by_cases hik : i = k
    · subst hik; simp [lookupA]
    · simp [lookupA, if_neg hik, hik, ih]

lemma lookupA_updateA_self {α : Type} (l : List (Int × α)) (i : Int) (v : α) :
    lookupA (updateA l i v) i = some v := by
  induction l with
  | nil => simp [updateA, lookupA]
  | cons q rest ih =>
    rcases q with ⟨k, w⟩
    by_cases hik : i = k
    · subst hik; simp [updateA, lookupA]
    · simp [updateA, lookupA, if_neg hik, hik, ih]

lemma lookupA_updateA_ne {α : Type} (l : List (Int × α)) (i j : Int) (v : α)
    (h : j ≠ i) : lookupA (updateA l i v) j = lookupA l j := by
  induction l with
  | nil => simp [updateA, lookupA, h]
  | cons q rest ih =>
    rcases q with ⟨k, w⟩
    by_cases hik : i = k
    · subst hik
      simp [updateA, lookupA, if_neg h]
    · by_cases hjk : j = k
      · subst hjk; simp [updateA, lookupA, if_neg hik]
      · simp [updateA, lookupA, if_neg hik, if_neg hjk, ih]

lemma EdgeStep_nonneg {g : Graph} (hN : NonnegCosts g) {i j c : Int}
    (h : EdgeStep g i j c) : 0 ≤ c := by
  rcases h with ⟨n, hn, e, he, _, hc⟩
  exact hc ▸ hN _ (lookupA_mem hn) e he

lemma EdgeStep_closed {g : Graph} (hC : Closed g) {i j c : Int}
    (h : EdgeStep g i j c) : j ∈ graphKeys g := by
  rcases h with ⟨n, hn, e, he, hd, _⟩
  exact hd ▸ hC _ (lookupA_mem hn) e he

/-! ### The priority queue -/

lemma pqLe_fst {a b : PQE} (h : pqLe a b = true) : a.1 ≤ b.1 := by
  simp only [pqLe, decide_eq_true_eq] at h
  rcases h with h | ⟨h, _⟩
  · omega
  · omega

lemma pqLe_total (a b : PQE) (h : ¬ pqLe a b = true) : pqLe b a = true := by
  simp only [pqLe, decide_eq_true_eq] at h ⊢
  rcases a with ⟨a1, a2, a3⟩
  rcases b with ⟨b1, b2, b3⟩
  simp only at h ⊢
  omega

lemma pqLe_refl (a : PQE) : pqLe a a = true := by
  simp [pqLe]

lemma pqLe_trans {a b c : PQE} (h1 : pqLe a b = true) (h2 : pqLe b c = true) :
    pqLe a c = true := by
  simp only [pqLe, decide_eq_true_eq] at h1 h2 ⊢
  rcases a with ⟨a1, a2, a3⟩
  rcases b with ⟨b1, b2, b3⟩
  rcases c with ⟨c1, c2, c3⟩
  simp only at h1 h2 ⊢
  omega

lemma popMax_eq_none {l : List PQE} (h : popMax l = none) : l = [] := by
  cases l with
  | nil => rfl
  | cons e es =>
    rw [popMax] at h
    split at h
    · cases h
    · split at h <;> cases h

lemma popMax_perm : ∀ {l : List PQE} {e : PQE} {r : List PQE},
    popMax l = some (e, r) → l.Perm (e :: r) := by
  intro l
  induction l with
  | nil => intro e r h; cases h
  | cons x xs ih =>
    intro e r h
    rw [popMax] at h
    split at h
    · rename_i hnone
      have hx : xs = [] := popMax_eq_none hnone
      subst hx
      cases h
      exact List.Perm.refl _
    · rename_i m rest hsome
      split at h
      · cases h
        have hperm := ih hsome
        exact (hperm.cons x).trans (List.Perm.swap _ _ _)
      · cases h
        exact List.Perm.refl _

lemma popMax_max : ∀ {l : List PQE} {e : PQE} {r : List PQE},
    popMax l = some (e, r) → ∀ x ∈ l, pqLe x e = true := by
  intro l
  induction l with
  | nil => intro e r h; cases h
  | cons y xs ih =>
    intro e r h x hx
    rw [popMax] at h
    split at h
    · rename_i hnone
      have hxs : xs = [] := popMax_eq_none hnone
      subst hxs
      cases h
      rcases List.mem_cons.1 hx with h | h
      · subst h
        exact pqLe_refl _
      · cases h
    · rename_i m rest hsome
      split at h
      · rename_i hle
        cases h
        rcases List.mem_cons.1 hx with h | h
        · subst h; exact hle
        · exact ih hsome x h
      · rename_i hle
        cases h
        rcases List.mem_cons.1 hx with h | h
        · subst h
          exact pqLe_refl _
        · exact pqLe_trans (ih hsome x h) (pqLe_total _ _ hle)

/-! ### The potential function bounding the number of loop iterations -/

/-- Total cost (in loop iterations) of the not-yet-settled nodes. -/
def unrecCost (g : Graph) (paths : PathsMap) : Nat :=
  ((g.filter (fun p => (lookupA paths p.1).isNone)).map (fun p => 1 + p.2.edges.length)).sum

lemma unrecCost_cons (k : Int) (m : Node) (rest : Graph) (paths : PathsMap) :
    unrecCost ((k, m) :: rest) paths =
      (if (lookupA paths k).isNone = true then 1 + m.edges.length else 0) +
        unrecCost rest paths := by
  simp only [unrecCost]
  by_cases h : (lookupA paths k).isNone = true
  · rw [List.filter_cons_of_pos (by simpa using h)]
    simp [h]
  · rw [List.filter_cons_of_neg (by simpa using h)]
    simp [h]

lemma unrecCost_congr (g : Graph) (p1 p2 : PathsMap)
    (h : ∀ i ∈ graphKeys g, lookupA p1 i = lookupA p2 i) :
    unrecCost g p1 = unrecCost g p2 := by
  induction g with
  | nil => rfl
  | cons q rest ih =>
    rcases q with ⟨k, m⟩
    rw [unrecCost_cons, unrecCost_cons, h k (by simp [graphKeys]),
      ih (fun i hi => h i (by simp [graphKeys]; right; simpa [graphKeys] using hi))]

lemma unrecCost_update (g : Graph) (paths : PathsMap) (i : Int) (v : Path) (n : Node)
    (hnd : (graphKeys g).Nodup) (hg : lookupA g i = some n) (hp : lookupA paths i = none) :
    unrecCost g (updateA paths i v) + (1 + n.edges.length) = unrecCost g paths := by
  induction g with
  | nil => cases hg
  | cons q rest ih =>
    rcases q with ⟨k, m⟩
    simp only [graphKeys, List.map_cons, List.nodup_cons] at hnd
    by_cases hik : i = k
    · subst hik
      have hm : n = m := by
        simp only [lookupA, if_pos rfl] at hg
        exact (Option.some.injEq _ _ ▸ hg).symm
      subst hm
      rw [unrecCost_cons, unrecCost_cons]
      rw [if_neg (by rw [lookupA_updateA_self]; simp), if_pos (by rw [hp]; rfl)]
      have hcong : unrecCost rest (updateA paths i v) = unrecCost rest paths := by
        refine unrecCost_congr rest _ _ (fun x hx => ?_)
        have hxi : x ≠ i := fun hxi => hnd.1 (hxi ▸ hx)
        exact lookupA_updateA_ne paths i x v hxi
      rw [hcong]
      omega
    · have hg' : lookupA rest i = some n := by
        simpa [lookupA, if_neg hik] using hg
      rw [unrecCost_cons, unrecCost_cons,
        lookupA_updateA_ne paths i k v (fun hk => hik hk.symm)]
      have := ih hnd.2 hg'
      omega

lemma unrecCost_nil_paths (g : Graph) :
    unrecCost g [] = (g.map (fun p => 1 + p.2.edges.length)).sum := by
  simp [unrecCost, lookupA]

/-! ### The Dijkstra loop invariant -/

lemma spLoop_succ_record (g : Graph) (f : Nat) (pq pq' : List PQE) (paths : PathsMap)
    (e : PQE) (n : Node)
    (hpop : popMax pq = some (e, pq'))
    (hnone : lookupA paths e.2.2 = none)
    (hg : lookupA g e.2.2 = some n) :
    spLoop g (f + 1) pq paths =
      spLoop g f (pq' ++ n.edges.map (fun ed => (-(-e.1 + ed.cost), e.2.2, ed.dst)))
        (updateA paths e.2.2 ⟨e.2.1, -e.1⟩) := by
  conv_lhs => rw [spLoop]
  rw [hpop]
  simp only [hnone, hg, if_true]

lemma spLoop_succ_discard (g : Graph) (f : Nat) (pq pq' : List PQE) (paths : PathsMap)
    (e : PQE) (pc : Path)
    (hpop : popMax pq = some (e, pq'))
    (hsome : lookupA paths e.2.2 = some pc)
    (hge : ¬ (-e.1 < pc.cost)) :
    spLoop g (f + 1) pq paths = spLoop g f pq' paths := by
  conv_lhs => rw [spLoop]
  rw [hpop]
  simp only [hsome]
  rw [if_neg (by simpa using hge)]

lemma spLoop_empty (g : Graph) (f : Nat) (paths : PathsMap) :
    spLoop g f [] paths = some paths := by
  cases f with
  | zero => simp [spLoop]
  | succ f => simp [spLoop, popMax]

/-- The invariant of the Dijkstra loop. `pq` entries and recorded paths are
sound with respect to walks; recorded costs never exceed the minimum of the
queue (so an already-recorded node is never improved, costs being
non-negative); every recorded node's edges are covered by a recorded
neighbor or a pending entry; the source is recorded at cost 0 or pending
as the initial entry. -/
structure SPInv (g : Graph) (s : Int) (pq : List PQE) (paths : PathsMap) : Prop where
  mono : ∃ m : Int, 0 ≤ m ∧ (∀ e ∈ pq, m ≤ -e.1) ∧
    (∀ i p, lookupA paths i = some p → p.cost ≤ m)
  pq_sound : ∀ e ∈ pq, (e.2.1 = -1 ∧ e.2.2 = s ∧ e.1 = 0) ∨
    (∃ q c, lookupA paths e.2.1 = some q ∧ EdgeStep g e.2.1 e.2.2 c ∧ -e.1 = q.cost + c)
  rec_sound : ∀ i p, lookupA paths i = some p → Walk g s i p.cost ∧ 0 ≤ p.cost ∧
    ((p.prev = -1 ∧ i = s ∧ p.cost = 0) ∨
     (∃ q c, lookupA paths p.prev = some q ∧ EdgeStep g p.prev i c ∧ p.cost = q.cost + c))
  complete : ∀ i p, lookupA paths i = some p → ∀ j c, EdgeStep g i j c →
    (∃ q, lookupA paths j = some q ∧ q.cost ≤ p.cost + c) ∨
    (∃ x ∈ pq, x.2.2 = j ∧ -x.1 ≤ p.cost + c)
  rec_keys : ∀ i p, lookupA paths i = some p → i ∈ graphKeys g
  src_in : (∃ p, lookupA paths s = some p) ∨ ((0 : Int), (-1 : Int), s) ∈ pq
  src_cost : ∀ p, lookupA paths s = some p → p.cost = 0

lemma spinv_discard {g : Graph} {s : Int} {pq pq' : List PQE} {paths : PathsMap} {e : PQE}
    (hI : SPInv g s pq paths) (hperm : pq.Perm (e :: pq'))
    (hmax : ∀ x ∈ pq, pqLe x e = true)
    (hcur : ∃ pc, lookupA paths e.2.2 = some pc) :
    SPInv g s pq' paths := by
  obtain ⟨m, hm0, hmpq, hmrec⟩ := hI.mono
  have hein : e ∈ pq := hperm.mem_iff.2 (List.mem_cons_self _ _)
  have hd : m ≤ -e.1 := hmpq e hein
  have hmem' : ∀ x ∈ pq', x ∈ pq := fun x hx => hperm.mem_iff.2 (List.mem_cons_of_mem _ hx)
  refine ⟨⟨-e.1, by omega, ?_, ?_⟩, ?_, hI.rec_sound, ?_, hI.rec_keys, ?_, hI.src_cost⟩
  · intro x hx
    have := pqLe_fst (hmax x (hmem' x hx))
    omega
  · intro i p hp
    have := hmrec i p hp
    omega
  · intro x hx
    exact hI.pq_sound x (hmem' x hx)
  · intro i p hp j c hstep
    rcases hI.complete i p hp j c hstep with h | ⟨e0, he0, hj, hle⟩
    · exact Or.inl h
    · by_cases heq : e0 = e
      · subst heq
        rcases hcur with ⟨pc, hpc⟩
        left
        refine ⟨pc, hj ▸ hpc, ?_⟩
        have h1 := hmrec _ _ hpc
        omega
      · right
        refine ⟨e0, ?_, hj, hle⟩
        rcases List.mem_cons.1 (hperm.mem_iff.1 he0) with h2 | h2
        · exact absurd h2 heq
        · exact h2
  · rcases hI.src_in with h | h
    · exact Or.inl h
    · by_cases heq : ((0 : Int), (-1 : Int), s) = e
      · left
        rcases hcur with ⟨pc, hpc⟩
        have hs2 : e.2.2 = s := by rw [← heq]
        exact ⟨pc, hs2 ▸ hpc⟩
      · right
        rcases List.mem_cons.1 (hperm.mem_iff.1 h) with h2 | h2
        · exact absurd h2 heq
        · exact h2

lemma spinv_record {g : Graph} {s : Int} {pq pq' : List PQE} {paths : PathsMap} {e : PQE}
    {n : Node}
    (_hC : Closed g) (hN : NonnegCosts g)
    (hI : SPInv g s pq paths) (hperm : pq.Perm (e :: pq'))
    (hmax : ∀ x ∈ pq, pqLe x e = true)
    (hnone : lookupA paths e.2.2 = none)
    (hg : lookupA g e.2.2 = some n) :
    SPInv g s (pq' ++ n.edges.map (fun ed => (-(-e.1 + ed.cost), e.2.2, ed.dst)))
      (updateA paths e.2.2 ⟨e.2.1, -e.1⟩) := by
  obtain ⟨m, hm0, hmpq, hmrec⟩ := hI.mono
  have hein : e ∈ pq := hperm.mem_iff.2 (List.mem_cons_self _ _)
  have hd : m ≤ -e.1 := hmpq e hein
  have hmem' : ∀ x ∈ pq', x ∈ pq := fun x hx => hperm.mem_iff.2 (List.mem_cons_of_mem _ hx)
  have hesound := hI.pq_sound e hein
  have hd0 : 0 ≤ -e.1 := by
    rcases hesound with ⟨_, _, h3⟩ | ⟨q, c, hq, hstep, heq⟩
    · omega
    · have h1 := (hI.rec_sound _ _ hq).2.1
      have h2 := EdgeStep_nonneg hN hstep
      omega
  have hds : e.2.2 = s → -e.1 = 0 := by
    intro hs2
    rcases hI.src_in with ⟨p, hp⟩ | h
    · rw [← hs2] at hp
      rw [hp] at hnone
      cases hnone
    · have := pqLe_fst (hmax _ h)
      simp only at this
      omega
  have lu_self : lookupA (updateA paths e.2.2 ⟨e.2.1, -e.1⟩) e.2.2 = some ⟨e.2.1, -e.1⟩ :=
    lookupA_updateA_self _ _ _
  have lu_pres : ∀ j pj, lookupA paths j = some pj →
      lookupA (updateA paths e.2.2 ⟨e.2.1, -e.1⟩) j = some pj := by
    intro j pj hj
    have hje : j ≠ e.2.2 := by
      intro hh
      rw [hh, hnone] at hj
      cases hj
    rw [lookupA_updateA_ne _ _ _ _ hje]
    exact hj
  have hcost_nonneg : ∀ ed ∈ n.edges, 0 ≤ ed.cost :=
    fun ed hed => hN _ (lookupA_mem hg) ed hed
  have hstep_of : ∀ ed ∈ n.edges, EdgeStep g e.2.2 ed.dst ed.cost :=
    fun ed hed => ⟨n, hg, ed, hed, rfl, rfl⟩
  refine ⟨⟨-e.1, by omega, ?_, ?_⟩, ?_, ?_, ?_, ?_, ?_, ?_⟩
  · -- pending entries bounded below by the new recorded cost
    intro x hx
    rcases List.mem_append.1 hx with hx | hx
    · have := pqLe_fst (hmax x (hmem' x hx))
      omega
    · rcases List.mem_map.1 hx with ⟨ed, hed, hxe⟩
      have := hcost_nonneg ed hed
      rw [← hxe]
      simp only
      omega
  · -- recorded costs bounded
    intro i p hp
    by_cases hie : i = e.2.2
    · subst hie
      rw [lu_self] at hp
      cases hp
      dsimp only
      omega
    · rw [lookupA_updateA_ne _ _ _ _ hie] at hp
      have := hmrec i p hp
      omega
  · -- pq_sound
    intro x hx
    rcases List.mem_append.1 hx with hx | hx
    · rcases hI.pq_sound x (hmem' x hx) with h | ⟨q, c, hq, hstep, heq⟩
      · exact Or.inl h
      · exact Or.inr ⟨q, c, lu_pres _ _ hq, hstep, heq⟩
    · rcases List.mem_map.1 hx with ⟨ed, hed, hxe⟩
      right
      refine ⟨⟨e.2.1, -e.1⟩, ed.cost, ?_, ?_, ?_⟩
      · rw [← hxe]; exact lu_self
      · rw [← hxe]
        simp only
        exact hstep_of ed hed
      · rw [← hxe]
        simp only
        omega
  · -- rec_sound
    intro i p hp
    by_cases hie : i = e.2.2
    · subst hie
      rw [lu_self] at hp
      cases hp
      dsimp only
      rcases hesound with ⟨h1, h2, h3⟩ | ⟨q, c, hq, hstep, heq⟩
      · refine ⟨?_, by omega, Or.inl ⟨h1, h2, by omega⟩⟩
        rw [h2]
        have : -e.1 = (0 : Int) := by omega
        rw [this]
        exact Walk.refl
      · obtain ⟨hw, hq0, _⟩ := hI.rec_sound _ _ hq
        refine ⟨?_, by omega, Or.inr ⟨q, c, lu_pres _ _ hq, hstep, heq⟩⟩
        rw [heq]
        exact hw.step hstep
    · rw [lookupA_updateA_ne _ _ _ _ hie] at hp
      obtain ⟨hw, hp0, hchain⟩ := hI.rec_sound i p hp
      refine ⟨hw, hp0, ?_⟩
      rcases hchain with h | ⟨q, c, hq, hstep, heq⟩
      · exact Or.inl h
      · exact Or.inr ⟨q, c, lu_pres _ _ hq, hstep, heq⟩
  · -- complete
    intro i p hp j c hstep
    by_cases hie : i = e.2.2
    · subst hie
      rw [lu_self] at hp
      cases hp
      rcases hstep with ⟨n', hg', ed, hed, hdst, hcost⟩
      have hnn : n' = n := by
        rw [hg] at hg'
        exact (Option.some.injEq _ _ ▸ hg'.symm)
      subst hnn
      right
      refine ⟨(-(-e.1 + ed.cost), e.2.2, ed.dst), ?_, ?_, ?_⟩
      · exact List.mem_append_right _ (List.mem_map.2 ⟨ed, hed, rfl⟩)
      · simpa using hdst
      · simp only
        omega
    · rw [lookupA_updateA_ne _ _ _ _ hie] at hp
      rcases hI.complete i p hp j c hstep with ⟨q, hq, hle⟩ | ⟨e0, he0, hj, hle⟩
      · exact Or.inl ⟨q, lu_pres _ _ hq, hle⟩
      · by_cases heq : e0 = e
        · subst heq
          left
          refine ⟨⟨e0.2.1, -e0.1⟩, hj ▸ lu_self, ?_⟩
          simp only
          omega
        · right
          refine ⟨e0, ?_, hj, hle⟩
          rcases List.mem_cons.1 (hperm.mem_iff.1 he0) with h2 | h2
          · exact absurd h2 heq
          · exact List.mem_append_left _ h2
  · -- rec_keys
    intro i p hp
    by_cases hie : i = e.2.2
    · subst hie
      exact lookupA_isSome_iff.1 (by rw [hg]; rfl)
    · rw [lookupA_updateA_ne _ _ _ _ hie] at hp
      exact hI.rec_keys i p hp
  · -- src_in
    by_cases hse : s = e.2.2
    · left
      refine ⟨⟨e.2.1, -e.1⟩, ?_⟩
      rw [hse]
      exact lu_self
    · rcases hI.src_in with ⟨p, hp⟩ | h
      · exact Or.inl ⟨p, lu_pres _ _ hp⟩
      · right
        rcases List.mem_cons.1 (hperm.mem_iff.1 h) with h2 | h2
        · exfalso
          apply hse
          rw [← h2]
        · exact List.mem_append_left _ h2
  · -- src_cost
    intro p hp
    by_cases hse : s = e.2.2
    · rw [hse, lu_self] at hp
      cases hp
      exact hds hse.symm
    · rw [lookupA_updateA_ne _ _ _ _ (fun hh => hse hh)] at hp
      exact hI.src_cost p hp

lemma spLoop_run (g : Graph) (s : Int) (hC : Closed g) (hN : NonnegCosts g)
    (hnd : (graphKeys g).Nodup) (hs : s ∈ graphKeys g) :
    ∀ fuel pq paths, SPInv g s pq paths →
      pq.length + unrecCost g paths ≤ fuel →
      ∃ res, spLoop g fuel pq paths = some res ∧ SPInv g s [] res ∧
        (∀ i p, lookupA paths i = some p → lookupA res i = some p) ∧
        (∀ e ∈ pq, ∃ p, lookupA res e.2.2 = some p) := by
  intro fuel
  induction fuel with
  | zero =>
    intro pq paths hI hfuel
    have hpq : pq = [] := List.length_eq_zero.1 (by omega)
    subst hpq
    exact ⟨paths, spLoop_empty g 0 paths, hI, fun i p hp => hp, by simp⟩
  | succ f ih =>
    intro pq paths hI hfuel
    rcases hpop : popMax pq with _ | ⟨e, pq'⟩
    · have hpq : pq = [] := popMax_eq_none hpop
      subst hpq
      exact ⟨paths, spLoop_empty g (f + 1) paths, hI, fun i p hp => hp, by simp⟩
    · have hperm := popMax_perm hpop
      have hmax := popMax_max hpop
      have hlen : pq.length = pq'.length + 1 := by
        have := hperm.length_eq
        simpa using this
      rcases hcur : lookupA paths e.2.2 with _ | pc
      · -- record branch: e.2.2 not yet settled
        have hkey : e.2.2 ∈ graphKeys g := by
          rcases hI.pq_sound e (hperm.mem_iff.2 (List.mem_cons_self _ _)) with
            ⟨_, h2, _⟩ | ⟨q, c, hq, hstep, _⟩
          · exact h2 ▸ hs
          · exact EdgeStep_closed hC hstep
        obtain ⟨n, hg⟩ : ∃ n, lookupA g e.2.2 = some n :=
          Option.isSome_iff_exists.1 (lookupA_isSome_iff.2 hkey)
        have hI' := spinv_record hC hN hI hperm hmax hcur hg
        have hupd := unrecCost_update g paths e.2.2 ⟨e.2.1, -e.1⟩ n hnd hg hcur
        have hfuel' :
            (pq' ++ n.edges.map (fun ed => (-(-e.1 + ed.cost), e.2.2, ed.dst))).length +
              unrecCost g (updateA paths e.2.2 ⟨e.2.1, -e.1⟩) ≤ f := by
          rw [List.length_append, List.length_map]
          omega
        obtain ⟨res, hrun, hfin, hpres, habs⟩ := ih _ _ hI' hfuel'
        refine ⟨res, ?_, hfin, ?_, ?_⟩
        · rw [spLoop_succ_record g f pq pq' paths e n hpop hcur hg]
          exact hrun
        · intro i p hp
          have hie : i ≠ e.2.2 := by
            intro hh
            rw [hh, hcur] at hp
            cases hp
          refine hpres i p ?_
          rw [lookupA_updateA_ne _ _ _ _ hie]
          exact hp
        · intro x hx
          by_cases hxe : x = e
          · subst hxe
            exact ⟨_, hpres _ _ (lookupA_updateA_self _ _ _)⟩
          · refine habs x (List.mem_append_left _ ?_)
            exact (List.mem_cons.1 (hperm.mem_iff.1 hx)).resolve_left hxe
      · -- discard branch: e.2.2 already settled at a no-worse cost
        have hle : pc.cost ≤ -e.1 := by
          obtain ⟨m, hm0, hmpq, hmrec⟩ := hI.mono
          have h1 := hmrec _ _ hcur
          have h2 := hmpq e (hperm.mem_iff.2 (List.mem_cons_self _ _))
          omega
        have hI' := spinv_discard hI hperm hmax ⟨pc, hcur⟩
        have hfuel' : pq'.length + unrecCost g paths ≤ f := by omega
        obtain ⟨res, hrun, hfin, hpres, habs⟩ := ih _ _ hI' hfuel'
        refine ⟨res, ?_, hfin, hpres, ?_⟩
        · rw [spLoop_succ_discard g f pq pq' paths e pc hpop hcur (by omega)]
          exact hrun
        · intro x hx
          by_cases hxe : x = e
          · subst hxe
            exact ⟨pc, hpres _ _ hcur⟩
          · exact habs x ((List.mem_cons.1 (hperm.mem_iff.1 hx)).resolve_left hxe)

/-- Running `shortest_paths` on a well-formed graph from a node of the graph
terminates within its fuel with a result satisfying the final invariant. -/
lemma shortest_paths_run (g : Graph) (s : Int) (hC : Closed g) (hN : NonnegCosts g)
    (hnd : (graphKeys g).Nodup) (hs : s ∈ graphKeys g) :
    ∃ res, shortest_paths g s = some res ∧ SPInv g s [] res ∧
      (∃ p, lookupA res s = some p) := by
  have hI : SPInv g s [(0, -1, s)] [] := by
    refine ⟨⟨0, le_refl _, ?_, ?_⟩, ?_, ?_, ?_, ?_, ?_, ?_⟩
    · intro x hx
      rcases List.mem_cons.1 hx with h | h
      · rw [h]; simp
      · cases h
    · intro i p hp; cases hp
    · intro x hx
      rcases List.mem_cons.1 hx with h | h
      · left
        rw [h]
        exact ⟨rfl, rfl, rfl⟩
      · cases h
    · intro i p hp; cases hp
    · intro i p hp; cases hp
    · intro i p hp; cases hp
    · exact Or.inr (List.mem_cons_self _ _)
    · intro p hp; cases hp
  have hfuel : ([(((0 : Int), (-1 : Int), s) : PQE)]).length + unrecCost g [] ≤ spFuel g := by
    rw [unrecCost_nil_paths]
    simp [spFuel]
  obtain ⟨res, hrun, hfin, _, habs⟩ :=
    spLoop_run g s hC hN hnd hs (spFuel g) [(0, -1, s)] [] hI hfuel
  refine ⟨res, hrun, hfin, ?_⟩
  obtain ⟨p, hp⟩ := habs (0, -1, s) (List.mem_cons_self _ _)
  exact ⟨p, hp⟩

instance (g : Graph) : Decidable (Closed g) := by
  unfold Closed
  infer_instance

instance (g : Graph) : Decidable (NonnegCosts g) := by
  unfold NonnegCosts
  infer_instance

lemma final_closed {g : Graph} {s : Int} {res : PathsMap} (hfin : SPInv g s [] res) :
    ∀ i p, lookupA res i = some p → ∀ j c, EdgeStep g i j c →
      ∃ q, lookupA res j = some q ∧ q.cost ≤ p.cost + c := by
  intro i p hp j c hstep
  rcases hfin.complete i p hp j c hstep with h | ⟨x, hx, _⟩
  · exact h
  · cases hx

lemma walk_recorded {g : Graph} {s : Int} {res : PathsMap} (hfin : SPInv g s [] res)
    (hsrec : ∃ p, lookupA res s = some p) :
    ∀ t w, Walk g s t w → ∃ q, lookupA res t = some q ∧ q.cost ≤ w := by
  intro t w hw
  induction hw with
  | refl =>
    obtain ⟨p, hp⟩ := hsrec
    refine ⟨p, hp, ?_⟩
    rw [hfin.src_cost p hp]
  | @step i w j c hwk hstep ih =>
    obtain ⟨q, hq, hle⟩ := ih
    obtain ⟨r, hr, hle2⟩ := final_closed hfin i q hq j c hstep
    exact ⟨r, hr, by omega⟩

/-- The full correctness package for `shortest_paths` on well-formed
graphs: termination, keys = reachable set, minimality, and a predecessor
chain realizing each recorded cost. -/
lemma shortest_paths_correct (g : Graph) (s : Int) (hC : Closed g) (hN : NonnegCosts g)
    (hnd : (graphKeys g).Nodup) (hs : s ∈ graphKeys g) :
    ∃ res, shortest_paths g s = some res ∧
      (∀ t, (∃ p, lookupA res t = some p) ↔ Reaches g s t) ∧
      (∀ t p, lookupA res t = some p →
        Walk g s t p.cost ∧ (∀ w, Walk g s t w → p.cost ≤ w) ∧
        ((p.prev = -1 ∧ t = s ∧ p.cost = 0) ∨
         (∃ q c, lookupA res p.prev = some q ∧ EdgeStep g p.prev t c ∧
           p.cost = q.cost + c))) := by
  obtain ⟨res, hrun, hfin, hsrec⟩ := shortest_paths_run g s hC hN hnd hs
  refine ⟨res, hrun, ?_, ?_⟩
  · intro t
    constructor
    · rintro ⟨p, hp⟩
      exact ⟨p.cost, (hfin.rec_sound t p hp).1⟩
    · rintro ⟨w, hw⟩
      obtain ⟨q, hq, _⟩ := walk_recorded hfin hsrec t w hw
      exact ⟨q, hq⟩
  · intro t p hp
    obtain ⟨hw, h0, hchain⟩ := hfin.rec_sound t p hp
    refine ⟨hw, ?_, hchain⟩
    intro w hww
    obtain ⟨q, hq, hle⟩ := walk_recorded hfin hsrec t w hww
    rw [hp] at hq
    cases hq
    exact hle

/-- Claim C3: on a well-formed graph (every record's destination is a node,
keys unique as `std::map` guarantees, non-negative costs) whose source is a
node of the graph, `shortest_paths` returns a mapping whose keys are
exactly the nodes reachable from the source; each entry's cost is the
minimum possible walk cost from the source to that node, and the recorded
predecessor chain realizes that cost (each entry is either the source root
or one recorded edge step from its recorded predecessor). Unreachable
nodes have no entry. -/
theorem C3_shortest_paths_minimal (g : Graph) (s : Int) (hC : Closed g)
    (hN : NonnegCosts g) (hnd : (graphKeys g).Nodup) (hs : s ∈ graphKeys g) :
    ∃ res, shortest_paths g s = some res ∧
      (∀ t, (∃ p, lookupA res t = some p) ↔ Reaches g s t) ∧
      (∀ t p, lookupA res t = some p →
        Walk g s t p.cost ∧ (∀ w, Walk g s t w → p.cost ≤ w) ∧
        ((p.prev = -1 ∧ t = s ∧ p.cost = 0) ∨
         (∃ q c, lookupA res p.prev = some q ∧ EdgeStep g p.prev t c ∧
           p.cost = q.cost + c))) :=
  shortest_paths_correct g s hC hN hnd hs

/-- Witness for C3 at a concrete input. -/
theorem C3_shortest_paths_minimal_witness :
    Closed (buildGraph [(0, 1, 2), (1, 2, 3)]) ∧
    NonnegCosts (buildGraph [(0, 1, 2), (1, 2, 3)]) ∧
    (graphKeys (buildGraph [(0, 1, 2), (1, 2, 3)])).Nodup ∧
    (0 : Int) ∈ graphKeys (buildGraph [(0, 1, 2), (1, 2, 3)]) ∧
    (∃ res, shortest_paths (buildGraph [(0, 1, 2), (1, 2, 3)]) 0 = some res ∧
      (∀ t, (∃ p, lookupA res t = some p) ↔ Reaches (buildGraph [(0, 1, 2), (1, 2, 3)]) 0 t) ∧
      (∀ t p, lookupA res t = some p →
        Walk (buildGraph [(0, 1, 2), (1, 2, 3)]) 0 t p.cost ∧
        (∀ w, Walk (buildGraph [(0, 1, 2), (1, 2, 3)]) 0 t w → p.cost ≤ w) ∧
        ((p.prev = -1 ∧ t = 0 ∧ p.cost = 0) ∨
         (∃ q c, lookupA res p.prev = some q ∧
           EdgeStep (buildGraph [(0, 1, 2), (1, 2, 3)]) p.prev t c ∧
           p.cost = q.cost + c)))) :=
  ⟨by decide, by decide, by decide, by decide,
    C3_shortest_paths_minimal (buildGraph [(0, 1, 2), (1, 2, 3)]) 0
      (by decide) (by decide) (by decide) (by decide)⟩

/-- Claim C7: on a well-formed graph whose source is a node, a target not
reachable from the source makes `longest_path_to` return the sentinel `-1`
— no exception is raised, and the function returns before any exposure,
matching, or marking work. -/
theorem C7_unreachable_target_sentinel (g : Graph) (s t : Int) (hC : Closed g)
    (hN : NonnegCosts g) (hnd : (graphKeys g).Nodup) (hs : s ∈ graphKeys g)
    (hnr : ¬ Reaches g s t) :
    longest_path_to g s t = some (-1) := by
  obtain ⟨res, hrun, hfin, hsrec⟩ := shortest_paths_run g s hC hN hnd hs
  have hnone : lookupA res t = none := by
    rcases hl : lookupA res t with _ | p
    · rfl
    · exact absurd ⟨p.cost, (hfin.rec_sound t p hl).1⟩ hnr
  obtain ⟨n0, hn0⟩ : ∃ n0, lookupA g s = some n0 :=
    Option.isSome_iff_exists.1 (lookupA_isSome_iff.2 hs)
  unfold longest_path_to
  rw [hn0, hrun]
  simp only [hnone, Option.isNone_none, if_true]

/-- A closed set of nodes containing the source and not the target rules
out reachability. -/
lemma not_reaches_of_closed_list (g : Graph) (s t : Int) (S : List Int)
    (hsS : s ∈ S)
    (hcl : ∀ i ∈ S, ∀ p ∈ g, p.1 = i → ∀ e ∈ p.2.edges, e.dst ∈ S)
    (htS : t ∉ S) : ¬ Reaches g s t := by
  rintro ⟨w, hw⟩
  have hmem : ∀ t' w', Walk g s t' w' → t' ∈ S := by
    intro t' w' hw'
    induction hw' with
    | refl => exact hsS
    | @step i w3 j c hwk hstep ih =>
      rcases hstep with ⟨n, hn, e, he, hdst, _⟩
      exact hdst ▸ hcl i ih (i, n) (lookupA_mem hn) rfl e he
  exact htS (hmem t w hw)

/-- Witness for C7 at a concrete input: node 2 is not reachable from 0. -/
theorem C7_unreachable_target_sentinel_witness :
    ¬ Reaches (buildGraph [(0, 1, 5), (2, 3, 7)]) 0 2 ∧
    longest_path_to (buildGraph [(0, 1, 5), (2, 3, 7)]) 0 2 = some (-1) := by
  have hnr : ¬ Reaches (buildGraph [(0, 1, 5), (2, 3, 7)]) 0 2 :=
    not_reaches_of_closed_list _ 0 2 [0, 1] (by decide) (by decide) (by decide)
  exact ⟨hnr, C7_unreachable_target_sentinel (buildGraph [(0, 1, 5), (2, 3, 7)]) 0 2
    (by decide) (by decide) (by decide) (by decide) hnr⟩

end LP
